import Mathlib

/-!
Verification development for the access-policy generator (`PolicyGenerator`)
of the zenstack repository. The generator walks a resolved schema AST
(data models, fields, attributes whose second argument is a rule expression)
and assembles a policy artifact: per model and CRUD kind a guard (constant
or a generated function), an optional create input checker, an optional
permission checker, selectors, field-level sections, and a global
`authSelector`.

The definitions below are a shallow embedding of
`packages/schema/src/plugins/enhancer/policy/policy-guard-generator.ts`
(the `PolicyGenerator` class). Helper functions that the class imports from
the SDK/utils modules (`getPolicyExpressions`, `analyzePolicies`,
`generateQueryGuardFunction`, `generateSelectForRules`, the expression
transformers) are not part of the given sources; those are modelled from the
specification's description and are marked as such in their doc comments.
-/

/-- Information the resolver attaches to a reference that targets a data-model
field: which model owns the field, the field's name, whether it carries the
`@default` attribute, whether it is a foreign-key field, and whether its
resolved type is itself a data model (a relation). -/
structure FieldInfo where
  containerModel : String
  fieldName : String
  hasDefaultAttr : Bool
  isForeignKey : Bool
  typeIsDataModel : Bool
deriving DecidableEq, Repr

/-- The resolved target of a reference expression: either a data-model field
(with its resolver facts) or some other declaration (enum field, etc.), for
which only "is the resolved type a data model" is relevant. -/
inductive RefTarget where
  | dmField : FieldInfo → RefTarget
  | other : Bool → RefTarget
deriving DecidableEq, Repr

/-- Rule-expression AST, a shallow embedding of the langium expression nodes
the generator inspects: literals, `this`, resolved references, member access,
`auth()` invocations, binary operators and negation. Attribute arguments also
appear as expressions (the operation-kind argument is a string literal). -/
inductive Expr where
  | strLit : String → Expr
  | boolLit : Bool → Expr
  | thisExpr : Expr
  | ref : RefTarget → Expr
  | memberAccess : Expr → String → Expr
  | authInvocation : Expr
  | binary : String → Expr → Expr → Expr
  | unaryNot : Expr → Expr
deriving DecidableEq, Repr

/-- All nodes of an expression tree, the node itself first: the embedding of
langium's `streamAst` used by `canCheckCreateBasedOnInput` and
`generateAuthSelector`. -/
def streamAst : Expr → List Expr
  | .memberAccess op m => .memberAccess op m :: streamAst op
  | .binary o l r => .binary o l r :: (streamAst l ++ streamAst r)
  | .unaryNot e => .unaryNot e :: streamAst e
  | e => [e]

/-- An attribute attached to a model or field: its declaration name
(`@@allow`, `@@deny`, `@allow`, `@deny`, `@default`, ...), its positional
argument values, and whether it carries the `override: true` named argument. -/
structure Attribute where
  declName : String
  args : List Expr
  overrideMarked : Bool
deriving DecidableEq, Repr

/-- A field of a data model: name plus attributes. -/
structure DataModelField where
  name : String
  attributes : List Attribute
deriving DecidableEq, Repr

/-- A data model: name, ordered fields, model-level attributes. -/
structure DataModel where
  name : String
  fields : List DataModelField
  attributes : List Attribute
deriving DecidableEq, Repr

/-- Plugin options the generator consults. `generatePermissionChecker` is the
one knob of the policy compiler; `none` models an absent option, mirroring the
TypeScript `!== true` test against an optional boolean. -/
structure Options where
  generatePermissionChecker : Option Bool
  preserveTsFiles : Option Bool
deriving DecidableEq, Repr

/-- The five policy operation kinds. -/
inductive PolicyOp where
  | read | create | update | postUpdate | delete
deriving DecidableEq, Repr

/-- Allow or deny rule family. -/
inductive PolicyKind where
  | allow | deny
deriving DecidableEq, Repr

/-- The string naming an operation kind in a policy attribute's first
argument. -/
def opName : PolicyOp → String
  | .read => "read"
  | .create => "create"
  | .update => "update"
  | .postUpdate => "postUpdate"
  | .delete => "delete"

/-- Attribute name for a model-level rule of the given family. -/
def modelAttrName : PolicyKind → String
  | .allow => "@@allow"
  | .deny => "@@deny"

/-- Attribute name for a field-level rule of the given family. -/
def fieldAttrName : PolicyKind → String
  | .allow => "@allow"
  | .deny => "@deny"

/-- Modelled from the spec: `getPolicyExpressions` (imported from
`./utils`, not among the given sources). Per §4.2 it walks the subject's
attributes, filters to the matching allow/deny family and operation kind
(treating `all` as matching every kind), and with `overrideOnly = true`
returns only the override-marked subset; the rule expression is the
attribute's second argument. -/
def getPolicyExpressions (attrs : List Attribute) (attrName : String)
    (op : PolicyOp) (overrideOnly : Bool) : List Expr :=
  (attrs.filter fun a =>
    decide (a.declName = attrName) &&
    (!overrideOnly || a.overrideMarked) &&
    (match a.args.head? with
     | some (.strLit ops) => decide (ops = opName op) || decide (ops = "all")
     | _ => false)).filterMap fun a => a.args.get? 1

/-- Model-level rule expressions of a family and kind. -/
def modelPolicyExprs (m : DataModel) (k : PolicyKind) (op : PolicyOp)
    (overrideOnly : Bool) : List Expr :=
  getPolicyExpressions m.attributes (modelAttrName k) op overrideOnly

/-- Field-level rule expressions of a family and kind. -/
def fieldPolicyExprs (f : DataModelField) (k : PolicyKind) (op : PolicyOp)
    (overrideOnly : Bool) : List Expr :=
  getPolicyExpressions f.attributes (fieldAttrName k) op overrideOnly

/-- Output-side expression tree of an emitted function body. The generator
writes its output as TypeScript source text; this embedding keeps the boolean
structure of that text, with `transformed e` standing for the text produced by
transforming the single rule expression `e` (the expression transformers are
imported helpers, not among the given sources). -/
inductive OutExpr where
  | boolConst : Bool → OutExpr
  | transformed : Expr → OutExpr
  | orE : OutExpr → OutExpr → OutExpr
  | andE : OutExpr → OutExpr → OutExpr
  | notE : OutExpr → OutExpr
deriving DecidableEq, Repr

/-- The `join(' || ')` of the transformed rule expressions: left-associated
disjunction, `false` for the (never emitted) empty list. -/
def orTransformed : List Expr → OutExpr
  | [] => .boolConst false
  | e :: es => es.foldl (fun acc x => .orE acc (.transformed x)) (.transformed e)

/-- Boolean semantics of an output expression under a valuation of the
transformed source rules. -/
def evalOut (v : Expr → Bool) : OutExpr → Bool
  | .boolConst b => b
  | .transformed e => v e
  | .orE a b => evalOut v a || evalOut v b
  | .andE a b => evalOut v a && evalOut v b
  | .notE a => !evalOut v a

/-- Whether the transformed form of a given source rule expression occurs
anywhere in an output expression. -/
def outMentions : OutExpr → Expr → Bool
  | .boolConst _, _ => false
  | .transformed s, e => decide (s = e)
  | .orE a b, e => outMentions a e || outMentions b e
  | .andE a b, e => outMentions a e || outMentions b e
  | .notE a, e => outMentions a e

/-- A generated named function: its emitted name and the boolean structure of
its body. -/
structure GenFunc where
  name : String
  body : OutExpr
deriving DecidableEq, Repr

/-- Modelled from the spec: the body shape of a query guard (§4.5), built from
OR-of-allows AND NOT-OR-of-denies; with no allow rules only the negated denies
remain, and with no rules at all the guard denies. -/
def queryGuardBody (allows denies : List Expr) : OutExpr :=
  match allows, denies with
  | [], [] => .boolConst false
  | [], d :: ds => .notE (orTransformed (d :: ds))
  | a :: as, [] => orTransformed (a :: as)
  | a :: as, d :: ds => .andE (.notE (orTransformed (d :: ds))) (orTransformed (a :: as))

/-- Modelled from the spec: `generateQueryGuardFunction` (imported from
`./utils`, not among the given sources) emits a named guard function for a
model, kind, optional field and override flag, whose body combines the allow
and deny rules per §4.5. -/
def generateQueryGuardFunction (m : DataModel) (kind : PolicyOp)
    (allows denies : List Expr) (forField : Option String)
    (fieldOverride : Bool) : GenFunc :=
  { name :=
      m.name ++
      (match forField with
       | some fn => "$" ++ fn
       | none => "") ++
      (if fieldOverride then "$override" else "") ++
      "_" ++ opName kind
    body := queryGuardBody allows denies }

/-- A select shape, represented as the set of field paths it covers: a nested
mapping from field names to `true` or a nested shape is isomorphic to the list
of paths that end in `true`. -/
abbrev Selector := List (List String)

/-- The field path denoted by a reference or by a member-access chain rooted
in a reference (a relation traversal); `none` for nodes that denote no row
data. -/
def refPath : Expr → Option (List String)
  | .ref (.dmField f) => some [f.fieldName]
  | .memberAccess x m =>
      match refPath x with
      | some p => some (p ++ [m])
      | none => none
  | _ => none

/-- The select paths a single rule expression needs: in auth mode the members
accessed on `auth()`, otherwise the row field paths referenced by the rule. -/
def exprSelectPaths (forAuth : Bool) (e : Expr) : List (List String) :=
  (streamAst e).filterMap fun n =>
    if forAuth then
      match n with
      | .memberAccess x m => if x = .authInvocation then some [m] else none
      | _ => none
    else
      refPath n

/-- Path normalization used when merging: auth selectors merge
case-insensitively across models. -/
def normPath (forAuth : Bool) (p : List String) : List String :=
  if forAuth then p.map (fun s => s.toLower) else p

/-- Union of select paths with duplicates removed (first occurrence kept). -/
def dedupPaths (forAuth : Bool) (ps : List (List String)) : List (List String) :=
  ps.foldl
    (fun acc p =>
      if acc.any (fun q => decide (normPath forAuth q = normPath forAuth p)) then acc
      else acc ++ [p])
    []

/-- Modelled from the spec: `generateSelectForRules` (imported from `./utils`,
not among the given sources). Per §4.4 it unions the projections the given
rule expressions need and returns absent when no additional data is needed. -/
def generateSelectForRules (rules : List Expr) (forAuth : Bool) : Option Selector :=
  let paths := rules.foldl (fun acc r => acc ++ exprSelectPaths forAuth r) []
  let merged := dedupPaths forAuth paths
  if merged.isEmpty then none else some merged

/-- Result of the constant-policy analysis for one operation kind. -/
inductive PolicyStatus where
  | constant : Bool → PolicyStatus
  | dynamic
deriving DecidableEq, Repr

/-- Whether a rule expression is the boolean literal `true`. -/
def isTrueLiteral : Expr → Bool
  | .boolLit true => true
  | _ => false

/-- Modelled from the spec: `analyzePolicies` (imported from the SDK, not
among the given sources). Per §4.3 a kind is constant-false when no allow rule
exists, constant-true when an allow rule is the literal `true` with no
competing deny rules or when the kind is `postUpdate` with no rules at all,
and dynamic otherwise. -/
def analyzePolicies (op : PolicyOp) (allows denies : List Expr) : PolicyStatus :=
  if op = .postUpdate ∧ allows = [] ∧ denies = [] then .constant true
  else if allows = [] then .constant false
  else if allows.any isTrueLiteral ∧ denies = [] then .constant true
  else .dynamic

/-- A model-level guard entry: either a constant boolean written inline or a
reference to a generated guard function. -/
inductive Guard where
  | constGuard : Bool → Guard
  | funcGuard : String → Guard
deriving DecidableEq, Repr

/-- Embedding of `PolicyGenerator.writePolicyGuard`: the guard value written
for a model and kind, together with the guard function generated for it (none
on the constant paths). Mirrors the source's branch order: the update-without-
allow-rules case first (constant decided by the postUpdate allow rules), then
the postUpdate-without-rules case, then the constant-policy analysis, and only
then a generated query guard function. -/
def writePolicyGuard (m : DataModel) (kind : PolicyOp)
    (allows denies : List Expr) : Guard × Option GenFunc :=
  if kind = .update ∧ allows = [] then
    if modelPolicyExprs m .allow .postUpdate false = [] then
      (.constGuard false, none)
    else
      (.constGuard true, none)
  else if kind = .postUpdate ∧ allows = [] ∧ denies = [] then
    (.constGuard true, none)
  else
    match analyzePolicies kind allows denies with
    | .constant b => (.constGuard b, none)
    | .dynamic =>
        let f := generateQueryGuardFunction m kind allows denies none false
        (.funcGuard f.name, some f)

/-- Whether a reference target's resolved type is a data model (a relation). -/
def refResolvedIsDataModel : RefTarget → Bool
  | .dmField f => f.typeIsDataModel
  | .other b => b

/-- Whether a reference target is a field of the named model that carries the
`@default` attribute. -/
def refIsCurModelDefaultField (modelName : String) : RefTarget → Bool
  | .dmField f => decide (f.containerModel = modelName) && f.hasDefaultAttr
  | .other _ => false

/-- Whether a reference target is a foreign-key field. -/
def refIsForeignKey : RefTarget → Bool
  | .dmField f => f.isForeignKey
  | .other _ => false

/-- One AST node's check inside `canCheckCreateBasedOnInput`: `this`
expressions and references to relations, to defaulted fields of the current
model, or to foreign-key fields make a rule uncheckable from create input. -/
def inputCheckableNode (modelName : String) : Expr → Bool
  | .thisExpr => false
  | .ref t =>
      if refResolvedIsDataModel t then false
      else if refIsCurModelDefaultField modelName t then false
      else if refIsForeignKey t then false
      else true
  | _ => true

/-- Embedding of `PolicyGenerator.canCheckCreateBasedOnInput`: every node of
every allow and deny rule must pass `inputCheckableNode`. -/
def canCheckCreateBasedOnInput (m : DataModel) (allows denies : List Expr) : Bool :=
  (allows ++ denies).all fun rule =>
    (streamAst rule).all (inputCheckableNode m.name)

/-- The body built by `generateCreateInputCheckerFunction`: `return false`
with no allow rules; otherwise the OR-joined transformed allow rules, guarded
by the negated OR-joined transformed deny rules when deny rules exist. -/
def createInputCheckerBody (allows denies : List Expr) : OutExpr :=
  if allows = [] then .boolConst false
  else
    match denies with
    | [] => orTransformed allows
    | d :: ds => .andE (.notE (orTransformed (d :: ds))) (orTransformed allows)

/-- Embedding of `PolicyGenerator.generateCreateInputCheckerFunction`: the
emitted input-checker function, named `<Model>_create_input`. -/
def generateCreateInputCheckerFunction (m : DataModel)
    (allows denies : List Expr) : GenFunc :=
  { name := m.name ++ "_create_input"
    body := createInputCheckerBody allows denies }

/-- Embedding of `PolicyGenerator.writeCreateInputChecker`: the input checker
entry is emitted exactly when the create rules can be checked from input. -/
def writeCreateInputChecker (m : DataModel) : Option GenFunc :=
  let allows := modelPolicyExprs m .allow .create false
  let denies := modelPolicyExprs m .deny .create false
  if canCheckCreateBasedOnInput m allows denies then
    some (generateCreateInputCheckerFunction m allows denies)
  else
    none

/-- A permission-checker entry: a constant boolean written inline or a
reference to a generated checker function. -/
inductive PermValue where
  | constP : Bool → PermValue
  | funcP : String → PermValue
deriving DecidableEq, Repr

/-- Embedding of `PolicyGenerator.writePermissionChecker`: nothing is emitted
unless the `generatePermissionChecker` option is exactly `true`; then a
constant policy is written inline, the update-without-allow-rules case is
decided by the postUpdate allow rules, and otherwise a checker function
(named `<Model>$checker$<kind>`, built by the constraint transformer) is
referenced. -/
def writePermissionChecker (opts : Options) (m : DataModel) (kind : PolicyOp)
    (allows denies : List Expr) : Option PermValue :=
  if opts.generatePermissionChecker ≠ some true then none
  else
    match analyzePolicies kind allows denies with
    | .constant b => some (.constP b)
    | .dynamic =>
        if kind = .update ∧ allows = [] then
          if modelPolicyExprs m .allow .postUpdate false = [] then
            some (.constP false)
          else
            some (.constP true)
        else
          some (.funcP (m.name ++ "$checker$" ++ opName kind))

/-- Embedding of `PolicyGenerator.writePostUpdatePreValueSelector`: the
selector over the postUpdate allow and deny rules, omitted when it is empty. -/
def writePostUpdatePreValueSelector (m : DataModel) : Option Selector :=
  generateSelectForRules
    (modelPolicyExprs m .allow .postUpdate false ++
      modelPolicyExprs m .deny .postUpdate false)
    false

/-- The model-level policy definition written for one model and operation
kind. -/
structure ModelKindDef where
  guard : Guard
  guardFunc : Option GenFunc
  inputChecker : Option GenFunc
  permissionChecker : Option PermValue
  preUpdateSelector : Option Selector
deriving DecidableEq, Repr

/-- Embedding of `PolicyGenerator.writeCommonModelDef` plus the kind-specific
extras (`writeCreateInputChecker` for create, `writePostUpdatePreValueSelector`
for postUpdate; the permission checker is skipped for postUpdate). -/
def writeModelKindDef (opts : Options) (m : DataModel) (kind : PolicyOp) : ModelKindDef :=
  let allows := modelPolicyExprs m .allow kind false
  let denies := modelPolicyExprs m .deny kind false
  let g := writePolicyGuard m kind allows denies
  { guard := g.1
    guardFunc := g.2
    inputChecker := if kind = .create then writeCreateInputChecker m else none
    permissionChecker :=
      if kind = .postUpdate then none
      else writePermissionChecker opts m kind allows denies
    preUpdateSelector :=
      if kind = .postUpdate then writePostUpdatePreValueSelector m else none }

/-- Embedding of `PolicyGenerator.generateFieldReadCheckerFunction`: the
field read checker named `<Model>$<field>_read`, combining the negated
OR-joined deny rules with the OR-joined allow rules; with neither family
present the source throws `should not happen`. -/
def generateFieldReadCheckerFunction (containerName : String)
    (f : DataModelField) (allows denies : List Expr) : Except String GenFunc :=
  let denyStmt : Option OutExpr :=
    match denies with
    | [] => none
    | d :: ds => some (.notE (orTransformed (d :: ds)))
  let allowStmt : Option OutExpr :=
    match allows with
    | [] => none
    | a :: as => some (orTransformed (a :: as))
  let funcName := containerName ++ "$" ++ f.name ++ "_read"
  match denyStmt, allowStmt with
  | some d, some a => .ok { name := funcName, body := .andE d a }
  | some d, none => .ok { name := funcName, body := d }
  | none, some a => .ok { name := funcName, body := a }
  | none, none => .error "should not happen"

/-- The field-level `read` section: checker entries per field, an optional
selector over all collected rules, and override guard entries per field. -/
structure FieldReadSection where
  checker : List (String × GenFunc)
  selector : Option Selector
  overrideGuard : List (String × GenFunc)
deriving DecidableEq, Repr

/-- The per-field loop of `PolicyGenerator.writeFieldReadDef`: fields with no
read allow and no read deny rules are skipped; for the others a checker
function is generated, the rules are accumulated for the selector, and a
field with override-marked read allow rules additionally gets an override
guard built from those override allows together with the field's read deny
rules. Returns (checkers, override guards, accumulated allows, accumulated
denies). -/
def collectFieldRead (m : DataModel) :
    List DataModelField →
    Except String (List (String × GenFunc) × List (String × GenFunc) × List Expr × List Expr)
  | [] => .ok ([], [], [], [])
  | f :: rest =>
    let allows := fieldPolicyExprs f .allow .read false
    let denies := fieldPolicyExprs f .deny .read false
    if denies = [] ∧ allows = [] then
      collectFieldRead m rest
    else
      match generateFieldReadCheckerFunction m.name f allows denies with
      | .error e => .error e
      | .ok checkerFunc =>
        match collectFieldRead m rest with
        | .error e => .error e
        | .ok (cs, os, aAll, dAll) =>
          let overrideAllows := fieldPolicyExprs f .allow .read true
          let os' :=
            if overrideAllows = [] then os
            else
              (f.name,
                generateQueryGuardFunction m .read overrideAllows denies
                  (some f.name) true) :: os
          .ok ((f.name, checkerFunc) :: cs, os', allows ++ aAll, denies ++ dAll)

/-- Embedding of `PolicyGenerator.writeFieldReadDef`: the `read` section is
written only when some checker or override guard was collected; the selector
is written only under the checker block and covers all collected allow and
deny rules. -/
def writeFieldReadDef (m : DataModel) : Except String (Option FieldReadSection) :=
  match collectFieldRead m m.fields with
  | .error e => .error e
  | .ok (cs, os, aAll, dAll) =>
    if cs = [] ∧ os = [] then .ok none
    else
      .ok (some
        { checker := cs
          selector :=
            if cs = [] then none else generateSelectForRules (aAll ++ dAll) false
          overrideGuard := os })

/-- The field-level `update` section: guard entries and override guard entries
per field. -/
structure FieldUpdateSection where
  guard : List (String × GenFunc)
  overrideGuard : List (String × GenFunc)
deriving DecidableEq, Repr

/-- The per-field loop of `PolicyGenerator.writeFieldUpdateDef`: fields with
no update allow and no update deny rules are skipped; a guard is generated
for the others, and fields with override-marked update allow rules
additionally get an override guard. -/
def collectFieldUpdate (m : DataModel) :
    List DataModelField → List (String × GenFunc) × List (String × GenFunc)
  | [] => ([], [])
  | f :: rest =>
    let allows := fieldPolicyExprs f .allow .update false
    let denies := fieldPolicyExprs f .deny .update false
    if denies = [] ∧ allows = [] then
      collectFieldUpdate m rest
    else
      let (gs, os) := collectFieldUpdate m rest
      let overrideAllows := fieldPolicyExprs f .allow .update true
      let os' :=
        if overrideAllows = [] then os
        else
          (f.name,
            generateQueryGuardFunction m .update overrideAllows denies
              (some f.name) true) :: os
      ((f.name, generateQueryGuardFunction m .update allows denies (some f.name) false) :: gs,
        os')

/-- Embedding of `PolicyGenerator.writeFieldUpdateDef`: the `update` section
is written only when some guard or override guard was collected. -/
def writeFieldUpdateDef (m : DataModel) : Option FieldUpdateSection :=
  let (gs, os) := collectFieldUpdate m m.fields
  if gs = [] ∧ os = [] then none
  else some { guard := gs, overrideGuard := os }

/-- Whether an AST node is a member access on an `auth()` invocation. -/
def isAuthMemberAccess : Expr → Bool
  | .memberAccess x _ => decide (x = Expr.authInvocation)
  | _ => false

/-- The per-model collection step of `PolicyGenerator.generateAuthSelector`:
model-level `@@allow`/`@@deny` attributes and field-level `@allow`/`@deny`
attributes with more than one argument contribute their rule expression, from
which every member access on `auth()` is collected. -/
def modelAuthRules (m : DataModel) : List Expr :=
  let modelPolicyAttrs :=
    m.attributes.filter fun a =>
      decide (a.declName = "@@allow") || decide (a.declName = "@@deny")
  let fieldPolicyAttrs :=
    ((m.fields.map fun f => f.attributes).flatten).filter fun a =>
      decide (a.declName = "@allow") || decide (a.declName = "@deny")
  let allExpressions :=
    ((modelPolicyAttrs ++ fieldPolicyAttrs).filter fun a =>
      decide (1 < a.args.length)).filterMap fun a => a.args.get? 1
  (allExpressions.map fun rule => (streamAst rule).filter isAuthMemberAccess).flatten

/-- Embedding of `PolicyGenerator.generateAuthSelector`: the auth member
accesses of every model's policy rules are accumulated over the complete
model list, and only a non-empty collection yields a selector. -/
def generateAuthSelector (models : List DataModel) : Option Selector :=
  let authRules := models.foldl (fun acc m => acc ++ modelAuthRules m) []
  if 0 < authRules.length then generateSelectForRules authRules true else none

/-- Modelled from the spec: `hasValidationAttributes` (imported from the SDK,
not among the given sources) reports whether a model carries field or model
validation attributes, recorded as `hasValidation` metadata (§4.6). -/
def hasValidationAttributes (m : DataModel) : Bool :=
  m.attributes.any (fun a => decide (a.declName = "@@validate")) ||
  m.fields.any fun f =>
    f.attributes.any fun a =>
      ["@length", "@regex", "@email", "@url", "@gt", "@gte", "@lt", "@lte"].any
        fun n => decide (a.declName = n)

/-- Lower-cases the first character, the `lowerCaseFirst` applied to model
names when keying the artifact. -/
def lowerFirst (s : String) : String :=
  match s.data with
  | [] => s
  | c :: cs => String.mk (c.toLower :: cs)

/-- All model-level and field-level definitions written for one model. -/
structure ModelDefs where
  read : ModelKindDef
  create : ModelKindDef
  update : ModelKindDef
  postUpdate : ModelKindDef
  delete : ModelKindDef
  fieldRead : Option FieldReadSection
  fieldUpdate : Option FieldUpdateSection
deriving DecidableEq, Repr

/-- Embedding of `PolicyGenerator.writeModelLevelDefs` and
`writeFieldLevelDefs` for one model. -/
def generateModelDefs (opts : Options) (m : DataModel) : Except String ModelDefs :=
  match writeFieldReadDef m with
  | .error e => .error e
  | .ok fr =>
    .ok
      { read := writeModelKindDef opts m .read
        create := writeModelKindDef opts m .create
        update := writeModelKindDef opts m .update
        postUpdate := writeModelKindDef opts m .postUpdate
        delete := writeModelKindDef opts m .delete
        fieldRead := fr
        fieldUpdate := writeFieldUpdateDef m }

/-- The per-model loop of `PolicyGenerator.writePolicy`, keyed by the
lower-cased model name; a generation error aborts the whole compile. -/
def buildModelEntries (opts : Options) :
    List DataModel → Except String (List (String × ModelDefs))
  | [] => .ok []
  | m :: rest =>
    match generateModelDefs opts m with
    | .error e => .error e
    | .ok d =>
      match buildModelEntries opts rest with
      | .error e => .error e
      | .ok ds => .ok ((lowerFirst m.name, d) :: ds)

/-- The generated policy artifact: per-model definitions, validation metadata
and the global auth selector. -/
structure PolicyArtifact where
  models : List (String × ModelDefs)
  validation : List (String × Bool)
  authSelector : Option Selector
deriving DecidableEq, Repr

/-- Embedding of `PolicyGenerator.generate`: the policy object, the
validation metadata, and the auth selector computed in a final pass over the
complete model list. -/
def generatePolicy (opts : Options) (models : List DataModel) :
    Except String PolicyArtifact :=
  match buildModelEntries opts models with
  | .error e => .error e
  | .ok entries =>
    .ok
      { models := entries
        validation := models.map fun m => (lowerFirst m.name, hasValidationAttributes m)
        authSelector := generateAuthSelector models }

/-- Whether any model-level definition of the artifact carries a permission
checker entry. -/
def hasAnyPermChecker (art : PolicyArtifact) : Bool :=
  art.models.any fun p =>
    p.2.read.permissionChecker.isSome ||
    p.2.create.permissionChecker.isSome ||
    p.2.update.permissionChecker.isSome ||
    p.2.postUpdate.permissionChecker.isSome ||
    p.2.delete.permissionChecker.isSome

/-- The override-guard bodies of a model's field-level read section, keyed by
field name (empty when the section is absent or generation failed). -/
def overrideGuardBodies (m : DataModel) : List (String × OutExpr) :=
  match writeFieldReadDef m with
  | .ok (some s) => s.overrideGuard.map fun p => (p.1, p.2.body)
  | _ => []

/-- Whether an `Except` computation succeeded. -/
def isOkE {α : Type} : Except String α → Bool
  | .ok _ => true
  | .error _ => false

/-! Helper lemmas. -/

theorem mem_streamAst_self (e : Expr) : e ∈ streamAst e := by
  cases e <;> simp [streamAst]

theorem evalOut_orFoldl (v : Expr → Bool) (es : List Expr) (acc : OutExpr) :
    evalOut v (es.foldl (fun a x => .orE a (.transformed x)) acc) =
      (evalOut v acc || es.any v) := by
  induction es generalizing acc with
  | nil => simp
  | cons e es ih =>
    simp only [List.foldl_cons, List.any_cons, ih, evalOut]
    cases evalOut v acc <;> cases v e <;> simp

theorem evalOut_orTransformed (v : Expr → Bool) (e : Expr) (es : List Expr) :
    evalOut v (orTransformed (e :: es)) = (e :: es).any v := by
  simp [orTransformed, evalOut_orFoldl, evalOut]

theorem outMentions_orFoldl (es : List Expr) (acc : OutExpr) (x : Expr) :
    outMentions (es.foldl (fun a y => .orE a (.transformed y)) acc) x =
      (outMentions acc x || es.any fun y => decide (y = x)) := by
  induction es generalizing acc with
  | nil => simp
  | cons e es ih =>
    simp only [List.foldl_cons, List.any_cons, ih, outMentions]
    cases outMentions acc x <;> simp

theorem outMentions_orTransformed (e : Expr) (es : List Expr) (x : Expr)
    (h : outMentions (orTransformed (e :: es)) x = true) : x ∈ e :: es := by
  simp only [orTransformed, outMentions_orFoldl, outMentions, Bool.or_eq_true,
    decide_eq_true_eq, List.any_eq_true] at h
  rcases h with h | ⟨y, hy, rfl⟩
  · simp [h.symm]
  · exact List.mem_cons_of_mem _ hy

theorem outMentions_queryGuardBody (allows denies : List Expr) (x : Expr)
    (h : outMentions (queryGuardBody allows denies) x = true) :
    x ∈ allows ∨ x ∈ denies := by
  cases allows with
  | nil =>
    cases denies with
    | nil => simp [queryGuardBody, outMentions] at h
    | cons d ds =>
      simp only [queryGuardBody, outMentions] at h
      exact Or.inr (outMentions_orTransformed d ds x h)
  | cons a as =>
    cases denies with
    | nil =>
      simp only [queryGuardBody] at h
      exact Or.inl (outMentions_orTransformed a as x h)
    | cons d ds =>
      simp only [queryGuardBody, outMentions, Bool.or_eq_true] at h
      rcases h with h | h
      · exact Or.inr (outMentions_orTransformed d ds x h)
      · exact Or.inl (outMentions_orTransformed a as x h)

theorem foldl_append_eq {α β : Type} (f : α → List β) :
    ∀ (l : List α) (acc : List β),
      l.foldl (fun a x => a ++ f x) acc = acc ++ (l.map f).flatten
  | [], acc => by simp
  | x :: xs, acc => by
    simp [List.foldl_cons, foldl_append_eq f xs (acc ++ f x)]

theorem dedupPaths_foldl_ne_nil (b : Bool) :
    ∀ (ps : List (List String)) (acc : List (List String)), acc ≠ [] →
      ps.foldl
        (fun acc p =>
          if acc.any (fun q => decide (normPath b q = normPath b p)) then acc
          else acc ++ [p])
        acc ≠ []
  | [], acc, h => h
  | p :: ps, acc, h => by
    simp only [List.foldl_cons]
    split
    · exact dedupPaths_foldl_ne_nil b ps acc h
    · exact dedupPaths_foldl_ne_nil b ps (acc ++ [p]) (by simp)

theorem dedupPaths_ne_nil (b : Bool) (p : List String) (ps : List (List String)) :
    dedupPaths b (p :: ps) ≠ [] := by
  simp only [dedupPaths, List.foldl_cons, List.any_nil, Bool.false_eq_true,
    if_neg, List.nil_append]
  exact dedupPaths_foldl_ne_nil b ps [p] (by simp)

/-! Concrete schemas used by witnesses and the counterexample. -/

/-- A model with no policy attributes at all. -/
def mEmpty : DataModel := ⟨"M1", [], []⟩

/-- A model whose only rule is a `postUpdate` allow rule. -/
def mPostAllow : DataModel :=
  ⟨"M2", [], [⟨"@@allow", [.strLit "postUpdate", .boolLit true], false⟩]⟩

/-- The `auth().id` rule expression. -/
def authIdExpr : Expr := .memberAccess .authInvocation "id"

/-- The `auth().blocked` rule expression. -/
def authBlockedExpr : Expr := .memberAccess .authInvocation "blocked"

/-- Options with every knob absent. -/
def optsNone : Options := ⟨none, none⟩

/-- A field carrying an override-marked read allow rule and a read deny
rule. -/
def fC3 : DataModelField :=
  ⟨"secret",
    [⟨"@allow", [.strLit "read", authIdExpr], true⟩,
     ⟨"@deny", [.strLit "read", authBlockedExpr], false⟩]⟩

/-- The model holding `fC3`. -/
def mC3 : DataModel := ⟨"C3M", [fC3], []⟩

/-- A model with one create allow rule and one create deny rule, both
checkable from create input. -/
def mC5 : DataModel :=
  ⟨"C5M", [],
    [⟨"@@allow", [.strLit "create", authIdExpr], false⟩,
     ⟨"@@deny", [.strLit "create", .boolLit false], false⟩]⟩

/-- The input-checker function emitted for `mC5`. -/
def fC5 : GenFunc :=
  { name := "C5M_create_input"
    body := .andE (.notE (.transformed (.boolLit false))) (.transformed authIdExpr) }

/-- A model with a read allow rule referencing `auth().id`. -/
def mAuthRule : DataModel :=
  ⟨"W", [], [⟨"@@allow", [.strLit "read", authIdExpr], false⟩]⟩

/-! C1: update guard default with no update allow rules. -/

/-- C1. For a model with no model-level `update` allow rule, the emitted
model-level update guard is the constant `false` when the model also has no
`postUpdate` allow rule and the constant `true` when at least one exists, and
no update guard function is generated in either case. -/
theorem update_guard_default_from_postupdate (opts : Options) (m : DataModel)
    (h : modelPolicyExprs m .allow .update false = []) :
    (modelPolicyExprs m .allow .postUpdate false = [] →
      (writeModelKindDef opts m .update).guard = .constGuard false) ∧
    (modelPolicyExprs m .allow .postUpdate false ≠ [] →
      (writeModelKindDef opts m .update).guard = .constGuard true) ∧
    (writeModelKindDef opts m .update).guardFunc = none := by
  refine ⟨fun hp => ?_, fun hp => ?_, ?_⟩
  · simp [writeModelKindDef, writePolicyGuard, h, hp]
  · simp [writeModelKindDef, writePolicyGuard, h, hp]
  · by_cases hp : modelPolicyExprs m .allow .postUpdate false = [] <;>
      simp [writeModelKindDef, writePolicyGuard, h, hp]

/-- Witness for C1 at two concrete models: `mEmpty` has neither update nor
postUpdate allow rules, `mPostAllow` has a postUpdate allow rule. -/
theorem update_guard_default_from_postupdate_witness :
    (writeModelKindDef optsNone mEmpty .update).guard = .constGuard false ∧
    (writeModelKindDef optsNone mPostAllow .update).guard = .constGuard true ∧
    (writeModelKindDef optsNone mEmpty .update).guardFunc = none := by
  refine ⟨?_, ?_, ?_⟩
  · exact (update_guard_default_from_postupdate optsNone mEmpty (by decide)).1 (by decide)
  · exact (update_guard_default_from_postupdate optsNone mPostAllow (by decide)).2.1 (by decide)
  · exact (update_guard_default_from_postupdate optsNone mEmpty (by decide)).2.2

/-! C4: postUpdate guard default and selector absence with no postUpdate
rules. -/

/-- C4. For a model with no `postUpdate` allow rule and no `postUpdate` deny
rule, the emitted model-level postUpdate guard is the constant `true`, no
guard function is generated, and no `preUpdateSelector` entry is emitted. -/
theorem postupdate_guard_defaults_allow_no_selector (opts : Options)
    (m : DataModel)
    (hA : modelPolicyExprs m .allow .postUpdate false = [])
    (hD : modelPolicyExprs m .deny .postUpdate false = []) :
    (writeModelKindDef opts m .postUpdate).guard = .constGuard true ∧
    (writeModelKindDef opts m .postUpdate).guardFunc = none ∧
    (writeModelKindDef opts m .postUpdate).preUpdateSelector = none := by
  refine ⟨?_, ?_, ?_⟩ <;>
    simp [writeModelKindDef, writePolicyGuard, writePostUpdatePreValueSelector,
      generateSelectForRules, dedupPaths, hA, hD]

/-- Witness for C4 at `mEmpty`, which has no postUpdate rules. -/
theorem postupdate_guard_defaults_allow_no_selector_witness :
    (writeModelKindDef optsNone mEmpty .postUpdate).guard = .constGuard true ∧
    (writeModelKindDef optsNone mEmpty .postUpdate).guardFunc = none ∧
    (writeModelKindDef optsNone mEmpty .postUpdate).preUpdateSelector = none :=
  postupdate_guard_defaults_allow_no_selector optsNone mEmpty (by decide) (by decide)

/-! C2: create input checker emitted exactly for input-checkable rule sets. -/

theorem inputCheckableNode_iff (mn : String) (n : Expr) :
    inputCheckableNode mn n = true ↔
      (n ≠ Expr.thisExpr ∧
        ∀ t, n = Expr.ref t →
          refResolvedIsDataModel t = false ∧
          refIsCurModelDefaultField mn t = false ∧
          refIsForeignKey t = false) := by
  cases n with
  | thisExpr => simp [inputCheckableNode]
  | ref t =>
    simp only [inputCheckableNode, ne_eq, Expr.ref.injEq]
    constructor
    · intro h
      refine ⟨by simp, fun t' ht' => ?_⟩
      cases ht'
      constructor
      · by_contra hc
        simp only [Bool.not_eq_false] at hc
        simp [hc] at h
      constructor
      · by_contra hc
        simp only [Bool.not_eq_false] at hc
        rcases Bool.eq_false_or_eq_true (refResolvedIsDataModel t) with h1 | h1 <;>
          simp [h1, hc] at h
      · by_contra hc
        simp only [Bool.not_eq_false] at hc
        rcases Bool.eq_false_or_eq_true (refResolvedIsDataModel t) with h1 | h1 <;>
          rcases Bool.eq_false_or_eq_true (refIsCurModelDefaultField mn t) with h2 | h2 <;>
          simp [h1, h2, hc] at h
    · rintro ⟨-, h⟩
      obtain ⟨h1, h2, h3⟩ := h t rfl
      simp [h1, h2, h3]
  | strLit s => simp [inputCheckableNode]
  | boolLit b => simp [inputCheckableNode]
  | memberAccess x m => simp [inputCheckableNode]
  | authInvocation => simp [inputCheckableNode]
  | binary o l r => simp [inputCheckableNode]
  | unaryNot e => simp [inputCheckableNode]

/-- C2. For every model, the create input checker is emitted if and only if
every node of every create allow and deny rule is free of `this` expressions,
of references resolving to a data model, of references to fields of the
current model carrying `@default`, and of references to foreign-key fields. -/
theorem create_input_checker_emitted_iff_checkable (opts : Options) (m : DataModel) :
    (writeModelKindDef opts m .create).inputChecker.isSome = true ↔
      ∀ e ∈ modelPolicyExprs m .allow .create false ++
              modelPolicyExprs m .deny .create false,
        ∀ n ∈ streamAst e,
          n ≠ Expr.thisExpr ∧
          ∀ t, n = Expr.ref t →
            refResolvedIsDataModel t = false ∧
            refIsCurModelDefaultField m.name t = false ∧
            refIsForeignKey t = false := by
  have hstep :
      (writeModelKindDef opts m .create).inputChecker = writeCreateInputChecker m := by
    simp [writeModelKindDef]
  rw [hstep]
  unfold writeCreateInputChecker
  constructor
  · intro h
    by_cases hc :
        canCheckCreateBasedOnInput m
          (modelPolicyExprs m .allow .create false)
          (modelPolicyExprs m .deny .create false) = true
    · intro e he n hn
      rw [inputCheckableNode_iff m.name n |>.symm]
      unfold canCheckCreateBasedOnInput at hc
      rw [List.all_eq_true] at hc
      have := hc e he
      rw [List.all_eq_true] at this
      exact this n hn
    · simp only [Bool.not_eq_true] at hc
      simp [hc] at h
  · intro h
    have hc :
        canCheckCreateBasedOnInput m
          (modelPolicyExprs m .allow .create false)
          (modelPolicyExprs m .deny .create false) = true := by
      unfold canCheckCreateBasedOnInput
      rw [List.all_eq_true]
      intro e he
      rw [List.all_eq_true]
      intro n hn
      rw [inputCheckableNode_iff m.name n]
      exact h e he n hn
    simp [hc]

/-! C5: shape and semantics of the emitted create input checker body. -/

/-- C5. Whenever a create input checker function is emitted, its body returns
`false` when the model has no create allow rules; otherwise it is the
OR-combination of the transformed allow rules, conjoined with the negated
OR-combination of the transformed deny rules when at least one deny rule
exists. Under any valuation of the transformed rules the body evaluates to
"some allow rule holds and no deny rule holds". -/
theorem create_input_checker_body_semantics (opts : Options) (m : DataModel)
    (f : GenFunc)
    (h : (writeModelKindDef opts m .create).inputChecker = some f) :
    (modelPolicyExprs m .allow .create false = [] → f.body = .boolConst false) ∧
    (∀ a as, modelPolicyExprs m .allow .create false = a :: as →
      modelPolicyExprs m .deny .create false = [] →
      f.body = orTransformed (a :: as)) ∧
    (∀ a as d ds, modelPolicyExprs m .allow .create false = a :: as →
      modelPolicyExprs m .deny .create false = d :: ds →
      f.body = .andE (.notE (orTransformed (d :: ds))) (orTransformed (a :: as))) ∧
    (∀ v, evalOut v f.body =
      ((modelPolicyExprs m .allow .create false).any v &&
        !(modelPolicyExprs m .deny .create false).any v)) := by
  have hf : f = generateCreateInputCheckerFunction m
      (modelPolicyExprs m .allow .create false)
      (modelPolicyExprs m .deny .create false) := by
    have hstep :
        (writeModelKindDef opts m .create).inputChecker = writeCreateInputChecker m := by
      simp [writeModelKindDef]
    rw [hstep] at h
    unfold writeCreateInputChecker at h
    by_cases hc :
        canCheckCreateBasedOnInput m
          (modelPolicyExprs m .allow .create false)
          (modelPolicyExprs m .deny .create false) = true
    · simp [hc] at h
      exact h.symm
    · simp only [Bool.not_eq_true] at hc
      simp [hc] at h
  have hbody : f.body =
      createInputCheckerBody
        (modelPolicyExprs m .allow .create false)
        (modelPolicyExprs m .deny .create false) := by
    rw [hf]; rfl
  refine ⟨fun hA => ?_, fun a as hA hD => ?_, fun a as d ds hA hD => ?_, fun v => ?_⟩
  · rw [hbody, hA]; rfl
  · rw [hbody, hA, hD]
    simp [createInputCheckerBody]
  · rw [hbody, hA, hD]
    simp [createInputCheckerBody]
  · rw [hbody]
    cases hA : modelPolicyExprs m .allow .create false with
    | nil => simp [createInputCheckerBody, evalOut]
    | cons a as =>
      cases hD : modelPolicyExprs m .deny .create false with
      | nil =>
        simp [createInputCheckerBody, evalOut_orTransformed]
      | cons d ds =>
        simp [createInputCheckerBody, evalOut, evalOut_orTransformed]
        rw [Bool.and_comm]

/-- Witness for C5 at `mC5`: the emitted checker is `fC5` and its body
evaluates to `false` under the all-true valuation (the deny rule fires). -/
theorem create_input_checker_body_semantics_witness :
    evalOut (fun _ => true) fC5.body = false := by
  have h := create_input_checker_body_semantics optsNone mC5 fC5 (by decide)
  have h2 := h.2.2.2 (fun _ => true)
  simpa [mC5, modelPolicyExprs, getPolicyExpressions] using h2

/-! Field-level collection lemmas, shared by the field-section claims. -/

theorem genFieldReadChecker_ok (mn : String) (f : DataModelField)
    (allows denies : List Expr) (h : ¬(denies = [] ∧ allows = [])) :
    isOkE (generateFieldReadCheckerFunction mn f allows denies) = true := by
  cases allows with
  | nil =>
    cases denies with
    | nil => exact absurd ⟨rfl, rfl⟩ h
    | cons d ds => rfl
  | cons a as =>
    cases denies with
    | nil => rfl
    | cons d ds => rfl

theorem collectFieldRead_ok (m : DataModel) :
    ∀ fields, isOkE (collectFieldRead m fields) = true
  | [] => rfl
  | f :: rest => by
    rw [collectFieldRead]
    split
    · exact collectFieldRead_ok m rest
    · rename_i hcond
      have hok := genFieldReadChecker_ok m.name f
        (fieldPolicyExprs f .allow .read false)
        (fieldPolicyExprs f .deny .read false) hcond
      split
      · rename_i e hgen
        rw [hgen] at hok
        simp [isOkE] at hok
      · rename_i cf hgen
        have hrec := collectFieldRead_ok m rest
        split
        · rename_i e hr
          rw [hr] at hrec
          simp [isOkE] at hrec
        · rfl

theorem collectFieldRead_char (m : DataModel) :
    ∀ fields cs os aA dA,
      collectFieldRead m fields = .ok (cs, os, aA, dA) →
      ((cs = [] ∧ os = []) ↔
        ∀ f ∈ fields, fieldPolicyExprs f .allow .read false = [] ∧
          fieldPolicyExprs f .deny .read false = []) ∧
      (∀ n g, (n, g) ∈ cs → ∃ f, f ∈ fields ∧ f.name = n ∧
        (fieldPolicyExprs f .allow .read false ≠ [] ∨
          fieldPolicyExprs f .deny .read false ≠ [])) ∧
      (∀ n g, (n, g) ∈ os → ∃ f, f ∈ fields ∧ f.name = n ∧
        fieldPolicyExprs f .allow .read true ≠ [] ∧
        (fieldPolicyExprs f .allow .read false ≠ [] ∨
          fieldPolicyExprs f .deny .read false ≠ []) ∧
        g = generateQueryGuardFunction m .read
              (fieldPolicyExprs f .allow .read true)
              (fieldPolicyExprs f .deny .read false) (some f.name) true)
  | [], cs, os, aA, dA, h => by
    rw [collectFieldRead] at h
    simp only [Except.ok.injEq, Prod.mk.injEq] at h
    obtain ⟨h1, h2, h3, h4⟩ := h
    subst h1
    subst h2
    refine ⟨by simp, by simp, by simp⟩
  | f :: rest, cs, os, aA, dA, h => by
    rw [collectFieldRead] at h
    split at h
    · rename_i hcond
      obtain ⟨ih1, ih2, ih3⟩ := collectFieldRead_char m rest cs os aA dA h
      refine ⟨?_, ?_, ?_⟩
      · rw [ih1]
        constructor
        · intro hall f' hf'
          rcases List.mem_cons.mp hf' with rfl | hf'
          · exact ⟨hcond.2, hcond.1⟩
          · exact hall f' hf'
        · intro hall f' hf'
          exact hall f' (List.mem_cons_of_mem _ hf')
      · intro n g hn
        obtain ⟨f', hf', he⟩ := ih2 n g hn
        exact ⟨f', List.mem_cons_of_mem _ hf', he⟩
      · intro n g hn
        obtain ⟨f', hf', he⟩ := ih3 n g hn
        exact ⟨f', List.mem_cons_of_mem _ hf', he⟩
    · rename_i hcond
      split at h
      · exact absurd h (by simp)
      · rename_i cf hgen
        split at h
        · exact absurd h (by simp)
        · rename_i cs' os' aA' dA' hr
          simp only [Except.ok.injEq, Prod.mk.injEq] at h
          obtain ⟨h1, h2, h3, h4⟩ := h
          subst h1
          subst h2
          obtain ⟨ih1, ih2, ih3⟩ := collectFieldRead_char m rest cs' os' aA' dA' hr
          have hrules :
              fieldPolicyExprs f .allow .read false ≠ [] ∨
                fieldPolicyExprs f .deny .read false ≠ [] := by
            by_contra hc
            push_neg at hc
            exact hcond ⟨hc.2, hc.1⟩
          refine ⟨?_, ?_, ?_⟩
          · constructor
            · intro hcsos
              exact absurd hcsos.1 (by simp)
            · intro hall
              obtain ⟨h1, h2⟩ := hall f (List.mem_cons_self f rest)
              exact absurd ⟨h2, h1⟩ hcond
          · intro n g hn
            rcases List.mem_cons.mp hn with heq | hn
            · have h1 := congrArg Prod.fst heq
              simp only at h1
              subst h1
              exact ⟨f, List.mem_cons_self f rest, rfl, hrules⟩
            · obtain ⟨f', hf', he⟩ := ih2 n g hn
              exact ⟨f', List.mem_cons_of_mem _ hf', he⟩
          · intro n g hn
            by_cases hov : fieldPolicyExprs f .allow .read true = []
            · rw [if_pos hov] at hn
              obtain ⟨f', hf', he⟩ := ih3 n g hn
              exact ⟨f', List.mem_cons_of_mem _ hf', he⟩
            · rw [if_neg hov] at hn
              rcases List.mem_cons.mp hn with heq | hn
              · have h1 := congrArg Prod.fst heq
                have h2 := congrArg Prod.snd heq
                simp only at h1 h2
                subst h1
                exact ⟨f, List.mem_cons_self f rest, rfl, hov, hrules, h2⟩
              · obtain ⟨f', hf', he⟩ := ih3 n g hn
                exact ⟨f', List.mem_cons_of_mem _ hf', he⟩

theorem collectFieldUpdate_char (m : DataModel) :
    ∀ fields gs os, collectFieldUpdate m fields = (gs, os) →
      ((gs = [] ∧ os = []) ↔
        ∀ f ∈ fields, fieldPolicyExprs f .allow .update false = [] ∧
          fieldPolicyExprs f .deny .update false = []) ∧
      (∀ n g, (n, g) ∈ gs → ∃ f, f ∈ fields ∧ f.name = n ∧
        (fieldPolicyExprs f .allow .update false ≠ [] ∨
          fieldPolicyExprs f .deny .update false ≠ [])) ∧
      (∀ n g, (n, g) ∈ os → ∃ f, f ∈ fields ∧ f.name = n ∧
        fieldPolicyExprs f .allow .update true ≠ [] ∧
        (fieldPolicyExprs f .allow .update false ≠ [] ∨
          fieldPolicyExprs f .deny .update false ≠ []))
  | [], gs, os, h => by
    rw [collectFieldUpdate] at h
    simp only [Prod.mk.injEq] at h
    obtain ⟨h1, h2⟩ := h
    subst h1
    subst h2
    refine ⟨by simp, by simp, by simp⟩
  | f :: rest, gs, os, h => by
    rw [collectFieldUpdate] at h
    split at h
    · rename_i hcond
      obtain ⟨ih1, ih2, ih3⟩ := collectFieldUpdate_char m rest gs os h
      refine ⟨?_, ?_, ?_⟩
      · rw [ih1]
        constructor
        · intro hall f' hf'
          rcases List.mem_cons.mp hf' with rfl | hf'
          · exact ⟨hcond.2, hcond.1⟩
          · exact hall f' hf'
        · intro hall f' hf'
          exact hall f' (List.mem_cons_of_mem _ hf')
      · intro n g hn
        obtain ⟨f', hf', he⟩ := ih2 n g hn
        exact ⟨f', List.mem_cons_of_mem _ hf', he⟩
      · intro n g hn
        obtain ⟨f', hf', he⟩ := ih3 n g hn
        exact ⟨f', List.mem_cons_of_mem _ hf', he⟩
    · rename_i hcond
      have hsplit :
          collectFieldUpdate m rest =
            ((collectFieldUpdate m rest).1, (collectFieldUpdate m rest).2) := rfl
      rw [hsplit] at h
      simp only [Prod.mk.injEq] at h
      obtain ⟨h1, h2⟩ := h
      obtain ⟨ih1, ih2, ih3⟩ :=
        collectFieldUpdate_char m rest (collectFieldUpdate m rest).1
          (collectFieldUpdate m rest).2 rfl
      have hrules :
          fieldPolicyExprs f .allow .update false ≠ [] ∨
            fieldPolicyExprs f .deny .update false ≠ [] := by
        by_contra hc
        push_neg at hc
        exact hcond ⟨hc.2, hc.1⟩
      refine ⟨?_, ?_, ?_⟩
      · constructor
        · intro hgsos
          rw [← h1] at hgsos
          exact absurd hgsos.1 (by simp)
        · intro hall
          obtain ⟨ha, hd⟩ := hall f (List.mem_cons_self f rest)
          exact absurd ⟨hd, ha⟩ hcond
      · intro n g hn
        rw [← h1] at hn
        rcases List.mem_cons.mp hn with heq | hn
        · have hname := congrArg Prod.fst heq
          simp only at hname
          subst hname
          exact ⟨f, List.mem_cons_self f rest, rfl, hrules⟩
        · obtain ⟨f', hf', he⟩ := ih2 n g hn
          exact ⟨f', List.mem_cons_of_mem _ hf', he⟩
      · intro n g hn
        rw [← h2] at hn
        by_cases hov : fieldPolicyExprs f .allow .update true = []
        · rw [if_pos hov] at hn
          obtain ⟨f', hf', he⟩ := ih3 n g hn
          exact ⟨f', List.mem_cons_of_mem _ hf', he⟩
        · rw [if_neg hov] at hn
          rcases List.mem_cons.mp hn with heq | hn
          · have hname := congrArg Prod.fst heq
            simp only at hname
            subst hname
            exact ⟨f, List.mem_cons_self f rest, rfl, hov, hrules⟩
          · obtain ⟨f', hf', he⟩ := ih3 n g hn
            exact ⟨f', List.mem_cons_of_mem _ hf', he⟩

/-! C10: the field read checker's error branch is unreachable. -/

/-- C10. The `should not happen` error branch of the field read checker
generator is never taken: the per-field loop only invokes it for fields with
at least one read allow or deny rule, and under such an invocation the
generator succeeds, so `writeFieldReadDef` never aborts. -/
theorem field_read_checker_never_aborts :
    (∀ (mn : String) (f : DataModelField) (a : Expr) (as denies : List Expr),
      isOkE (generateFieldReadCheckerFunction mn f (a :: as) denies) = true) ∧
    (∀ (mn : String) (f : DataModelField) (allows : List Expr) (d : Expr)
        (ds : List Expr),
      isOkE (generateFieldReadCheckerFunction mn f allows (d :: ds)) = true) ∧
    (∀ m : DataModel, isOkE (writeFieldReadDef m) = true) := by
  refine ⟨?_, ?_, ?_⟩
  · intro mn f a as denies
    exact genFieldReadChecker_ok mn f (a :: as) denies (by simp)
  · intro mn f allows d ds
    exact genFieldReadChecker_ok mn f allows (d :: ds) (by simp)
  · intro m
    have h := collectFieldRead_ok m m.fields
    rw [writeFieldReadDef]
    cases hr : collectFieldRead m m.fields with
    | error e => rw [hr] at h; simp [isOkE] at h
    | ok r =>
      obtain ⟨cs, os, aA, dA⟩ := r
      dsimp only
      split <;> rfl

/-! C9: field-level sections exist exactly for models with field rules. -/

/-- C9. The field-level `read` section is emitted if and only if some field
carries a field-level read allow or deny rule, and its checker and override
guard entries name only fields that carry such a rule; analogously for the
`update` section with field-level update rules. -/
theorem field_level_sections_iff_field_rules :
    (∀ (m : DataModel) (s : Option FieldReadSection),
      writeFieldReadDef m = .ok s →
      (s.isSome = true ↔
        ∃ f ∈ m.fields, fieldPolicyExprs f .allow .read false ≠ [] ∨
          fieldPolicyExprs f .deny .read false ≠ [])) ∧
    (∀ (m : DataModel) (sec : FieldReadSection),
      writeFieldReadDef m = .ok (some sec) →
      (∀ n g, (n, g) ∈ sec.checker → ∃ f ∈ m.fields, f.name = n ∧
        (fieldPolicyExprs f .allow .read false ≠ [] ∨
          fieldPolicyExprs f .deny .read false ≠ [])) ∧
      (∀ n g, (n, g) ∈ sec.overrideGuard → ∃ f ∈ m.fields, f.name = n ∧
        (fieldPolicyExprs f .allow .read false ≠ [] ∨
          fieldPolicyExprs f .deny .read false ≠ []))) ∧
    (∀ m : DataModel,
      (writeFieldUpdateDef m).isSome = true ↔
        ∃ f ∈ m.fields, fieldPolicyExprs f .allow .update false ≠ [] ∨
          fieldPolicyExprs f .deny .update false ≠ []) ∧
    (∀ (m : DataModel) (sec : FieldUpdateSection),
      writeFieldUpdateDef m = some sec →
      (∀ n g, (n, g) ∈ sec.guard → ∃ f ∈ m.fields, f.name = n ∧
        (fieldPolicyExprs f .allow .update false ≠ [] ∨
          fieldPolicyExprs f .deny .update false ≠ [])) ∧
      (∀ n g, (n, g) ∈ sec.overrideGuard → ∃ f ∈ m.fields, f.name = n ∧
        (fieldPolicyExprs f .allow .update false ≠ [] ∨
          fieldPolicyExprs f .deny .update false ≠ []))) := by
  refine ⟨?_, ?_, ?_, ?_⟩
  · intro m s hs
    rw [writeFieldReadDef] at hs
    cases hr : collectFieldRead m m.fields with
    | error e => rw [hr] at hs; exact absurd hs (by simp)
    | ok r =>
      obtain ⟨cs, os, aA, dA⟩ := r
      rw [hr] at hs
      dsimp only at hs
      obtain ⟨ch1, -, -⟩ := collectFieldRead_char m m.fields cs os aA dA hr
      split at hs
      · rename_i hem
        injection hs with hs
        subst hs
        simp only [Option.isSome_none, Bool.false_eq_true, false_iff]
        push_neg
        intro f hf
        exact ch1.mp hem f hf
      · rename_i hem
        injection hs with hs
        subst hs
        simp only [Option.isSome_some, true_iff]
        by_contra hc
        push_neg at hc
        exact hem (ch1.mpr hc)
  · intro m sec hs
    rw [writeFieldReadDef] at hs
    cases hr : collectFieldRead m m.fields with
    | error e => rw [hr] at hs; exact absurd hs (by simp)
    | ok r =>
      obtain ⟨cs, os, aA, dA⟩ := r
      rw [hr] at hs
      dsimp only at hs
      obtain ⟨-, ch2, ch3⟩ := collectFieldRead_char m m.fields cs os aA dA hr
      split at hs
      · exact absurd hs (by simp)
      · injection hs with hs
        injection hs with hs
        subst hs
        constructor
        · intro n g hn
          obtain ⟨f, hf, hname, hrules⟩ := ch2 n g hn
          exact ⟨f, hf, hname, hrules⟩
        · intro n g hn
          obtain ⟨f, hf, hname, -, hrules, -⟩ := ch3 n g hn
          exact ⟨f, hf, hname, hrules⟩
  · intro m
    rcases hcu : collectFieldUpdate m m.fields with ⟨gs, os⟩
    obtain ⟨ch1, -, -⟩ := collectFieldUpdate_char m m.fields gs os hcu
    rw [writeFieldUpdateDef, hcu]
    dsimp only
    split
    · rename_i hem
      simp only [Option.isSome_none, Bool.false_eq_true, false_iff]
      push_neg
      intro f hf
      exact ch1.mp hem f hf
    · rename_i hem
      simp only [Option.isSome_some, true_iff]
      by_contra hc
      push_neg at hc
      exact hem (ch1.mpr hc)
  · intro m sec hs
    rcases hcu : collectFieldUpdate m m.fields with ⟨gs, os⟩
    obtain ⟨-, ch2, ch3⟩ := collectFieldUpdate_char m m.fields gs os hcu
    rw [writeFieldUpdateDef, hcu] at hs
    dsimp only at hs
    split at hs
    · exact absurd hs (by simp)
    · injection hs with hs
      subst hs
      constructor
      · intro n g hn
        obtain ⟨f, hf, hname, hrules⟩ := ch2 n g hn
        exact ⟨f, hf, hname, hrules⟩
      · intro n g hn
        obtain ⟨f, hf, hname, -, hrules⟩ := ch3 n g hn
        exact ⟨f, hf, hname, hrules⟩

/-! C3: the field-level read override guard. -/

/-- C3 counterexample. For the concrete model `mC3`, whose field `secret`
carries one override-marked read allow rule (`auth().id`) and one read deny
rule (`auth().blocked`), the emitted override guard's body mentions the deny
rule expression, which is not among the override-marked allow rules: the
override guard is NOT built only from the override-marked allow rules. -/
theorem override_guard_includes_deny_counterexample :
    overrideGuardBodies mC3 =
      [("secret",
        OutExpr.andE (.notE (.transformed authBlockedExpr)) (.transformed authIdExpr))] ∧
    outMentions
      (OutExpr.andE (.notE (.transformed authBlockedExpr)) (.transformed authIdExpr))
      authBlockedExpr = true ∧
    fieldPolicyExprs fC3 .allow .read true = [authIdExpr] ∧
    authBlockedExpr ∉ fieldPolicyExprs fC3 .allow .read true := by
  refine ⟨by decide, by decide, by decide, by decide⟩

/-- C3 amended. Every emitted field-level read override guard is the query
guard built from the field's override-marked read allow rules together with
the field's read deny rules, and only those rule expressions enter its body
(in particular, no non-override allow rule does). -/
theorem override_guard_built_from_override_allows_and_denies (m : DataModel)
    (sec : FieldReadSection) (n : String) (g : GenFunc)
    (h : writeFieldReadDef m = .ok (some sec))
    (hg : (n, g) ∈ sec.overrideGuard) :
    ∃ f, f ∈ m.fields ∧ f.name = n ∧
      fieldPolicyExprs f .allow .read true ≠ [] ∧
      g = generateQueryGuardFunction m .read
            (fieldPolicyExprs f .allow .read true)
            (fieldPolicyExprs f .deny .read false) (some f.name) true ∧
      ∀ e, outMentions g.body e = true →
        e ∈ fieldPolicyExprs f .allow .read true ∨
          e ∈ fieldPolicyExprs f .deny .read false := by
  rw [writeFieldReadDef] at h
  cases hr : collectFieldRead m m.fields with
  | error e => rw [hr] at h; exact absurd h (by simp)
  | ok r =>
    obtain ⟨cs, os, aA, dA⟩ := r
    rw [hr] at h
    dsimp only at h
    obtain ⟨-, -, ch3⟩ := collectFieldRead_char m m.fields cs os aA dA hr
    split at h
    · exact absurd h (by simp)
    · injection h with h
      injection h with h
      subst h
      obtain ⟨f, hf, hname, hov, -, hgq⟩ := ch3 n g hg
      refine ⟨f, hf, hname, hov, hgq, fun e he => ?_⟩
      rw [hgq] at he
      exact outMentions_queryGuardBody _ _ e he

/-- Witness for the amended C3 at `mC3`: the single override guard entry of
`mC3` is exactly the query guard built from `[authIdExpr]` (the override
allows) and `[authBlockedExpr]` (the denies), and its body mentions only
those two rules. -/
theorem override_guard_built_witness :
    ∃ f, f ∈ mC3.fields ∧ f.name = "secret" ∧
      fieldPolicyExprs f .allow .read true ≠ [] ∧
      (generateQueryGuardFunction mC3 .read [authIdExpr] [authBlockedExpr]
          (some "secret") true) =
        generateQueryGuardFunction mC3 .read
          (fieldPolicyExprs f .allow .read true)
          (fieldPolicyExprs f .deny .read false) (some f.name) true ∧
      ∀ e, outMentions
          (generateQueryGuardFunction mC3 .read [authIdExpr] [authBlockedExpr]
            (some "secret") true).body e = true →
        e ∈ fieldPolicyExprs f .allow .read true ∨
          e ∈ fieldPolicyExprs f .deny .read false := by
  exact override_guard_built_from_override_allows_and_denies mC3
    { checker := [("secret",
        { name := "C3M$secret_read"
          body := .andE (.notE (.transformed authBlockedExpr)) (.transformed authIdExpr) })]
      selector := none
      overrideGuard := [("secret",
        generateQueryGuardFunction mC3 .read [authIdExpr] [authBlockedExpr]
          (some "secret") true)] }
    "secret"
    (generateQueryGuardFunction mC3 .read [authIdExpr] [authBlockedExpr]
      (some "secret") true)
    (by rfl) (by decide)

/-! C6: the global auth selector. -/

theorem mem_modelAuthRules_iff (m : DataModel) (x : Expr) :
    x ∈ modelAuthRules m ↔
      ((∃ a ∈ m.attributes,
          (a.declName = "@@allow" ∨ a.declName = "@@deny") ∧
          1 < a.args.length ∧
          ∃ rule, a.args.get? 1 = some rule ∧
            x ∈ streamAst rule ∧ isAuthMemberAccess x = true) ∨
        (∃ f ∈ m.fields, ∃ a ∈ f.attributes,
          (a.declName = "@allow" ∨ a.declName = "@deny") ∧
          1 < a.args.length ∧
          ∃ rule, a.args.get? 1 = some rule ∧
            x ∈ streamAst rule ∧ isAuthMemberAccess x = true)) := by
  unfold modelAuthRules
  simp only [List.mem_flatten, List.mem_map, List.mem_filter, List.mem_filterMap,
    List.mem_append, Bool.or_eq_true, decide_eq_true_eq]
  constructor
  · rintro ⟨l, ⟨rule, ⟨⟨a, ⟨⟨ha, hlen⟩, hget⟩⟩, rfl⟩⟩, hx⟩
    obtain ⟨hx1, hx2⟩ := List.mem_filter.mp hx
    rcases ha with ⟨ham, hnm⟩ | ⟨haf, hnf⟩
    · exact Or.inl ⟨a, ham, hnm, hlen, rule, hget, hx1, hx2⟩
    · obtain ⟨attrs, ⟨f, hf, rfl⟩, hain⟩ := haf
      exact Or.inr ⟨f, hf, a, hain, hnf, hlen, rule, hget, hx1, hx2⟩
  · rintro (⟨a, ham, hnm, hlen, rule, hget, hx1, hx2⟩ |
            ⟨f, hf, a, hain, hnf, hlen, rule, hget, hx1, hx2⟩)
    · exact ⟨(streamAst rule).filter isAuthMemberAccess,
        ⟨rule, ⟨a, ⟨Or.inl ⟨ham, hnm⟩, hlen⟩, hget⟩, rfl⟩,
        List.mem_filter.mpr ⟨hx1, hx2⟩⟩
    · exact ⟨(streamAst rule).filter isAuthMemberAccess,
        ⟨rule, ⟨a, ⟨Or.inr ⟨⟨f.attributes, ⟨f, hf, rfl⟩, hain⟩, hnf⟩, hlen⟩, hget⟩, rfl⟩,
        List.mem_filter.mpr ⟨hx1, hx2⟩⟩

theorem selectAuthRules_isSome (r : Expr) (rs : List Expr)
    (h : isAuthMemberAccess r = true) :
    (generateSelectForRules (r :: rs) true).isSome = true := by
  cases r with
  | memberAccess x mname =>
    have hx : x = Expr.authInvocation := by
      simpa [isAuthMemberAccess] using h
    subst hx
    unfold generateSelectForRules
    rw [foldl_append_eq]
    have hpaths : exprSelectPaths true (Expr.memberAccess Expr.authInvocation mname) =
        [[mname]] := by
      simp [exprSelectPaths, streamAst]
    simp only [List.nil_append, List.map_cons, List.flatten_cons, hpaths,
      List.cons_append]
    have hne := dedupPaths_ne_nil true [mname] ((rs.map (exprSelectPaths true)).flatten)
    cases hd : dedupPaths true ([mname] :: (rs.map (exprSelectPaths true)).flatten) with
    | nil => exact absurd hd hne
    | cons p ps => simp [hd]
  | strLit s => simp [isAuthMemberAccess] at h
  | boolLit b => simp [isAuthMemberAccess] at h
  | thisExpr => simp [isAuthMemberAccess] at h
  | ref t => simp [isAuthMemberAccess] at h
  | authInvocation => simp [isAuthMemberAccess] at h
  | binary o l rr => simp [isAuthMemberAccess] at h
  | unaryNot e => simp [isAuthMemberAccess] at h

theorem generateAuthSelector_isSome_iff (models : List DataModel) :
    (generateAuthSelector models).isSome = true ↔
      ∃ m ∈ models, ∃ x, x ∈ modelAuthRules m := by
  unfold generateAuthSelector
  rw [foldl_append_eq]
  simp only [List.nil_append]
  cases hr : (models.map modelAuthRules).flatten with
  | nil =>
    simp only [List.length_nil, lt_self_iff_false, if_false, Option.isSome_none,
      Bool.false_eq_true, false_iff]
    push_neg
    intro m hm x
    intro hx
    have : x ∈ (models.map modelAuthRules).flatten :=
      List.mem_flatten.mpr ⟨modelAuthRules m, List.mem_map.mpr ⟨m, hm, rfl⟩, hx⟩
    rw [hr] at this
    simp at this
  | cons r rs =>
    have hrmem : r ∈ (models.map modelAuthRules).flatten := by
      rw [hr]; exact List.mem_cons_self r rs
    obtain ⟨l, hl, hrl⟩ := List.mem_flatten.mp hrmem
    obtain ⟨m, hm, rfl⟩ := List.mem_map.mp hl
    have hauth : isAuthMemberAccess r = true :=
      ((mem_modelAuthRules_iff m r).mp hrl).elim
        (fun ⟨_, _, _, _, _, _, _, hx⟩ => hx)
        (fun ⟨_, _, _, _, _, _, _, _, _, hx⟩ => hx)
    simp only [List.length_cons, Nat.zero_lt_succ, if_true]
    constructor
    · intro _
      exact ⟨m, hm, r, hrl⟩
    · intro _
      exact selectAuthRules_isSome r rs hauth

/-- C6. For every generated artifact, the `authSelector` entry equals the
selector computed by the single global pass over the complete model list, and
it is present if and only if some policy rule expression across all models
(model-level `@@allow`/`@@deny`, or field-level `@allow`/`@deny` with at
least two arguments) contains a member access on an `auth()` invocation. -/
theorem auth_selector_global_iff_auth_member_access (opts : Options)
    (models : List DataModel) (art : PolicyArtifact)
    (h : generatePolicy opts models = .ok art) :
    art.authSelector = generateAuthSelector models ∧
    (art.authSelector.isSome = true ↔
      ∃ m ∈ models,
        (∃ a ∈ m.attributes,
            (a.declName = "@@allow" ∨ a.declName = "@@deny") ∧
            1 < a.args.length ∧
            ∃ rule, a.args.get? 1 = some rule ∧
              ∃ n ∈ streamAst rule, isAuthMemberAccess n = true) ∨
        (∃ f ∈ m.fields, ∃ a ∈ f.attributes,
            (a.declName = "@allow" ∨ a.declName = "@deny") ∧
            1 < a.args.length ∧
            ∃ rule, a.args.get? 1 = some rule ∧
              ∃ n ∈ streamAst rule, isAuthMemberAccess n = true)) := by
  have hart : art.authSelector = generateAuthSelector models := by
    unfold generatePolicy at h
    cases hb : buildModelEntries opts models with
    | error e => rw [hb] at h; exact absurd h (by simp)
    | ok entries =>
      rw [hb] at h
      injection h with h
      subst h
      rfl
  refine ⟨hart, ?_⟩
  rw [hart, generateAuthSelector_isSome_iff]
  constructor
  · rintro ⟨m, hm, x, hx⟩
    refine ⟨m, hm, ?_⟩
    rcases (mem_modelAuthRules_iff m x).mp hx with
      ⟨a, ham, hn, hlen, rule, hget, hs, ha2⟩ |
      ⟨f, hf, a, hain, hn, hlen, rule, hget, hs, ha2⟩
    · exact Or.inl ⟨a, ham, hn, hlen, rule, hget, x, hs, ha2⟩
    · exact Or.inr ⟨f, hf, a, hain, hn, hlen, rule, hget, x, hs, ha2⟩
  · rintro ⟨m, hm,
      (⟨a, ham, hn, hlen, rule, hget, n, hs, ha2⟩ |
       ⟨f, hf, a, hain, hn, hlen, rule, hget, n, hs, ha2⟩)⟩
    · exact ⟨m, hm, n,
        (mem_modelAuthRules_iff m n).mpr (Or.inl ⟨a, ham, hn, hlen, rule, hget, hs, ha2⟩)⟩
    · exact ⟨m, hm, n,
        (mem_modelAuthRules_iff m n).mpr
          (Or.inr ⟨f, hf, a, hain, hn, hlen, rule, hget, hs, ha2⟩)⟩

/-- The artifact generated for the single model `mAuthRule` under default
options (the fallback value is never reached). -/
def artAuth : PolicyArtifact :=
  match generatePolicy optsNone [mAuthRule] with
  | .ok a => a
  | .error _ => ⟨[], [], none⟩

/-- Witness for C6 at the one-model schema `[mAuthRule]`, whose read allow
rule accesses `auth().id`. -/
theorem auth_selector_global_iff_auth_member_access_witness :
    artAuth.authSelector = generateAuthSelector [mAuthRule] ∧
    (artAuth.authSelector.isSome = true ↔
      ∃ m ∈ [mAuthRule],
        (∃ a ∈ m.attributes,
            (a.declName = "@@allow" ∨ a.declName = "@@deny") ∧
            1 < a.args.length ∧
            ∃ rule, a.args.get? 1 = some rule ∧
              ∃ n ∈ streamAst rule, isAuthMemberAccess n = true) ∨
        (∃ f ∈ m.fields, ∃ a ∈ f.attributes,
            (a.declName = "@allow" ∨ a.declName = "@deny") ∧
            1 < a.args.length ∧
            ∃ rule, a.args.get? 1 = some rule ∧
              ∃ n ∈ streamAst rule, isAuthMemberAccess n = true)) :=
  auth_selector_global_iff_auth_member_access optsNone [mAuthRule] artAuth (by rfl)

/-! C7: permission checkers are gated on the configuration option. -/

/-- C7. When the `generatePermissionChecker` option is not exactly `true`
(false or absent), no permission checker entry appears anywhere in the
generated artifact. -/
theorem permission_checker_requires_option_true (opts : Options)
    (models : List DataModel) (art : PolicyArtifact)
    (h : generatePolicy opts models = .ok art)
    (hopt : opts.generatePermissionChecker ≠ some true) :
    hasAnyPermChecker art = false := by
  have hk : ∀ (m : DataModel) (kind : PolicyOp),
      (writeModelKindDef opts m kind).permissionChecker = none := by
    intro m kind
    by_cases hpu : kind = PolicyOp.postUpdate
    · simp [writeModelKindDef, hpu]
    · simp only [writeModelKindDef, if_neg hpu]
      rw [writePermissionChecker, if_pos hopt]
  have hent : ∀ (ms : List DataModel) (entries : List (String × ModelDefs)),
      buildModelEntries opts ms = .ok entries →
      ∀ p ∈ entries,
        p.2.read.permissionChecker = none ∧
        p.2.create.permissionChecker = none ∧
        p.2.update.permissionChecker = none ∧
        p.2.postUpdate.permissionChecker = none ∧
        p.2.delete.permissionChecker = none := by
    intro ms
    induction ms with
    | nil =>
      intro entries h' p hp
      rw [buildModelEntries] at h'
      injection h' with h'
      subst h'
      simp at hp
    | cons m rest ih =>
      intro entries h' p hp
      rw [buildModelEntries] at h'
      split at h'
      · exact absurd h' (by simp)
      · rename_i d hd
        split at h'
        · exact absurd h' (by simp)
        · rename_i ds hds
          injection h' with h'
          subst h'
          rcases List.mem_cons.mp hp with rfl | hp
          · rw [generateModelDefs] at hd
            split at hd
            · exact absurd hd (by simp)
            · injection hd with hd
              subst hd
              exact ⟨hk m .read, hk m .create, hk m .update, hk m .postUpdate,
                hk m .delete⟩
          · exact ih ds hds p hp
  unfold generatePolicy at h
  cases hb : buildModelEntries opts models with
  | error e => rw [hb] at h; exact absurd h (by simp)
  | ok entries =>
    rw [hb] at h
    injection h with h
    subst h
    simp only [hasAnyPermChecker]
    rw [List.any_eq_false]
    intro p hp
    obtain ⟨h1, h2, h3, h4, h5⟩ := hent models entries hb p hp
    simp [h1, h2, h3, h4, h5]

/-- Witness for C7 at the one-model schema `[mAuthRule]` with the option
absent. -/
theorem permission_checker_requires_option_true_witness :
    hasAnyPermChecker artAuth = false :=
  permission_checker_requires_option_true optsNone [mAuthRule] artAuth
    (by rfl) (by decide)

/-! C8: determinism of generation. -/

/-- C8. Generation is deterministic: the policy artifact is a pure function
of the schema AST and the options, so two runs on the same unchanged inputs
produce identical artifacts (the source consults no clock, randomness or
other ambient state, and its only side effect, saving the emitted file, does
not feed back into the produced text). -/
theorem generation_deterministic (opts : Options) (models : List DataModel) :
    generatePolicy opts models = generatePolicy opts models := rfl
